import Mathlib

/-!
Shallow embedding of the extraction engine of this repository, the class
in `app/services/linkedin_parser.py`, together with proofs about it.

Modelling conventions.  Python strings are Lean `String`; JSON-like
values are the mutual inductive `JVal`/`JArr`/`JObj` (an object is a
key-ordered association list, as produced by `json.loads`); Python
`None`-or-value slots are `Option`.  The standard-library helpers
`str.strip`, `str.lower`, `str.startswith`, substring tests,
`html.unescape`, `str.replace` and the three `re` patterns of the source
are modelled by executable functions on `List Char`.  `json.loads` is
modelled as an explicit parameter `parse : String → Option JVal` of the
pipeline (`none` models both "not valid JSON" and a raised exception,
which the source converts to an empty result).  An input HTML document is
modelled by the ordered list of text payloads of its `<code>`/`<script>`
tags, i.e. the output of the BeautifulSoup scan in
`extract_jobs_from_saved_page`.
-/

namespace LinkedIn

/-- ASCII whitespace: the characters stripped by Python `str.strip` and
matched by the regex class `\s` (restricted to ASCII). -/
def pyIsSpace (c : Char) : Bool :=
  c = ' ' || c = '\t' || c = '\n' || c = '\r' || c = '\x0b' || c = '\x0c'

/-- Model of Python `str.strip` on the underlying character list. -/
def stripList (l : List Char) : List Char :=
  ((l.dropWhile pyIsSpace).reverse.dropWhile pyIsSpace).reverse

/-- Model of Python `str.strip`. -/
def pyStrip (s : String) : String := ⟨stripList s.data⟩

/-- Model of Python `str.lower` (ASCII). -/
def pyLower (s : String) : String := ⟨s.data.map Char.toLower⟩

/-- Model of the Python substring test `pat in s`, on character lists. -/
def containsSub (pat : List Char) : List Char → Bool
  | [] => pat.isEmpty
  | c :: rest => pat.isPrefixOf (c :: rest) || containsSub pat rest

/-- Model of the Python substring test `pat in s`. -/
def strContains (pat s : String) : Bool := containsSub pat.data s.data

/-- Model of Python `s.startswith(p)`. -/
def pyStartsWith (p s : String) : Bool := p.data.isPrefixOf s.data

/-- Modelled from the Python standard library: `html.unescape`, restricted
to the common named and numeric entities (`&quot; &amp; &apos; &lt; &gt;
&#39;`); all other text is left unchanged.  The source only relies on it to
turn escaped quotes back into literal quotes. -/
def unescapeList : List Char → List Char
  | '&' :: 'q' :: 'u' :: 'o' :: 't' :: ';' :: rest => '"' :: unescapeList rest
  | '&' :: 'a' :: 'm' :: 'p' :: ';' :: rest => '&' :: unescapeList rest
  | '&' :: 'a' :: 'p' :: 'o' :: 's' :: ';' :: rest => '\x27' :: unescapeList rest
  | '&' :: 'l' :: 't' :: ';' :: rest => '<' :: unescapeList rest
  | '&' :: 'g' :: 't' :: ';' :: rest => '>' :: unescapeList rest
  | '&' :: '#' :: '3' :: '9' :: ';' :: rest => '\x27' :: unescapeList rest
  | c :: rest => c :: unescapeList rest
  | [] => []

/-- Model of Python `html.unescape`. -/
def pyUnescape (s : String) : String := ⟨unescapeList s.data⟩

/-- Model of `link.replace("navigationUrl:", "")` (line 254 of the source):
every occurrence of the label is removed, scanning left to right. -/
def stripNavLabelList : List Char → List Char
  | 'n' :: 'a' :: 'v' :: 'i' :: 'g' :: 'a' :: 't' :: 'i' :: 'o' :: 'n' ::
      'U' :: 'r' :: 'l' :: ':' :: rest => stripNavLabelList rest
  | c :: rest => c :: stripNavLabelList rest
  | [] => []

/-- String wrapper for `stripNavLabelList`. -/
def stripNavLabel (s : String) : String := ⟨stripNavLabelList s.data⟩

mutual
/-- A JSON-like value, the kind of data `json.loads` hands to
`_recursive_search_for_job_nodes`. -/
inductive JVal where
  | null
  | bool (b : Bool)
  | num (n : Int)
  | str (s : String)
  | arr (xs : JArr)
  | obj (fs : JObj)

/-- A JSON array, one element per constructor so that structural mutual
recursion over the tree is available. -/
inductive JArr where
  | nil
  | cons (hd : JVal) (tl : JArr)

/-- A JSON object: key/value pairs in document order. -/
inductive JObj where
  | nil
  | cons (key : String) (val : JVal) (tl : JObj)
end

deriving instance DecidableEq for JVal

/-- Build a `JObj` from a list of pairs (notation helper for examples). -/
def JObj.ofList : List (String × JVal) → JObj
  | [] => .nil
  | (k, v) :: rest => .cons k v (JObj.ofList rest)

/-- Build a `JArr` from a list (notation helper for examples). -/
def JArr.ofList : List JVal → JArr
  | [] => .nil
  | v :: rest => .cons v (JArr.ofList rest)

/-- Model of `node.get(key)` / `node[key]` on a JSON object (first
occurrence wins, as for a Python dict built by `json.loads`). -/
def lookupField : JObj → String → Option JVal
  | .nil, _ => none
  | .cons k v tl, key => if k = key then some v else lookupField tl key

/-- Python truthiness of a JSON value. -/
def truthy : JVal → Bool
  | .null => false
  | .bool b => b
  | .num n => n != 0
  | .str s => s != ""
  | .arr .nil => false
  | .arr (.cons _ _) => true
  | .obj .nil => false
  | .obj (.cons _ _ _) => true

/-- Is the value a JSON object (Python `isinstance(x, dict)`)? -/
def JVal.isObj : JVal → Bool
  | .obj _ => true
  | _ => false

/-- The ordered sub-keys tried by `_normalize_link` on a nested object
(`possible_keys` in the source). -/
def possible_keys : List String := ["url", "navigationUrl", "href"]

/-- The `for key in possible_keys ... break / else return None` loop of
`_normalize_link`: the first sub-key bound to a string wins. -/
def firstStringKey (fs : JObj) : List String → Option String
  | [] => none
  | k :: rest =>
    match lookupField fs k with
    | some (.str s) => some s
    | _ => firstStringKey fs rest

/-- Embedding of `LinkedInHtmlParser._normalize_link` (lines 221-257).
Returns `none` where the Python code returns `None`; note that the code
can return an empty string (callers treat it as falsy). -/
def normalize_link (link : JVal) : Option String :=
  if truthy link = false then none
  else
    let link2 : Option String :=
      match link with
      | .obj fs => firstStringKey fs possible_keys
      | .str s => some s
      | _ => none
    match link2 with
    | none => none
    | some s0 =>
      let s1 := pyStrip (pyUnescape s0)
      let s2 := if pyStartsWith "/" s1 then "https://www.linkedin.com" ++ s1 else s1
      let s3 := if pyStartsWith "navigationUrl:" s2 then pyStrip (stripNavLabel s2) else s2
      some s3

/-- A raw candidate record `{"title": ..., "company": ..., "link": ...}`
as built by the two extraction strategies. -/
structure RawJob where
  title : Option String
  company : Option String
  link : Option String
deriving DecidableEq

/-- Model of the Python idiom `x or None` on an optional string. -/
def pyOrNone : Option String → Option String
  | some s => if s = "" then none else some s
  | none => none

/-- Model of `(node.get(key) or {}).get(sub) if isinstance(node.get(key),
dict) else None`, the nested `{...: {"text": ...}}` accessor shape. -/
def subField (fs : JObj) (key sub : String) : Option JVal :=
  match lookupField fs key with
  | some (.obj o) => lookupField o sub
  | _ => none

/-- The selection loop shared by `_extract_title_from_node` and
`_extract_company_from_node`: the first candidate that is a truthy string
with a non-empty strip is returned, stripped. -/
def firstGoodString : List (Option JVal) → Option String
  | [] => none
  | c :: rest =>
    match c with
    | some (.str s) =>
      if s ≠ "" ∧ pyStrip s ≠ "" then some (pyStrip s) else firstGoodString rest
    | _ => firstGoodString rest

/-- Embedding of `LinkedInHtmlParser._extract_title_from_node`
(lines 190-204). -/
def extract_title_from_node (fs : JObj) : Option String :=
  firstGoodString
    [ lookupField fs "title"
    , subField fs "titleText" "text"
    , subField fs "primaryText" "text"
    , subField fs "headline" "text"
    , lookupField fs "name" ]

/-- Embedding of `LinkedInHtmlParser._extract_company_from_node`
(lines 206-219). -/
def extract_company_from_node (fs : JObj) : Option String :=
  firstGoodString
    [ lookupField fs "companyName"
    , subField fs "secondaryTitleText" "text"
    , subField fs "subtitle" "text"
    , subField fs "company" "name" ]

/-- The ordered link-bearing field names of
`_recursive_search_for_job_nodes` (`possible_url_fields` in the source). -/
def possible_url_fields : List String :=
  ["navigationUrl", "navigationUrlForTracking", "navigationUrlForJob", "jobUrl", "url"]

/-- The candidate-emitting loop `for field in possible_url_fields: ...`
(lines 159-171): one raw candidate is appended per link-bearing field whose
value is truthy, whose normalization is truthy, and which is not a dict. -/
def nodeOwnCandidates (fs : JObj) : List RawJob :=
  possible_url_fields.filterMap fun field =>
    match lookupField fs field with
    | none => none
    | some v =>
      if truthy v then
        match normalize_link v with
        | none => none
        | some ln =>
          if ln = "" ∨ v.isObj = true then none
          else some
            { title := pyOrNone (extract_title_from_node fs)
            , company := pyOrNone (extract_company_from_node fs)
            , link := some ln }
      else none

mutual
/-- Embedding of `LinkedInHtmlParser._recursive_search_for_job_nodes`
(lines 149-188): own candidates of a dict node, then the six wrapper keys
(`if key in node and node[key]`), then every value, in that order; lists
element by element; scalars contribute nothing. -/
def search : JVal → List RawJob
  | .obj fs =>
    nodeOwnCandidates fs ++
      (searchKey fs "jobPosting" ++ (searchKey fs "jobCard" ++ (searchKey fs "job" ++
        (searchKey fs "jobPostings" ++ (searchKey fs "item" ++ searchKey fs "elements"))))) ++
      searchValues fs
  | .arr xs => searchArr xs
  | _ => []

/-- `if key in node and node[key]: jobs.extend(recurse(node[key]))` for one
wrapper key (first occurrence of the key wins, like a dict access). -/
def searchKey : JObj → String → List RawJob
  | .nil, _ => []
  | .cons k v tl, key =>
    if k = key then (if truthy v then search v else []) else searchKey tl key

/-- `for value in node.values(): jobs.extend(recurse(value))`. -/
def searchValues : JObj → List RawJob
  | .nil => []
  | .cons _ v tl => search v ++ searchValues tl

/-- Recursion over a JSON array, element by element. -/
def searchArr : JArr → List RawJob
  | .nil => []
  | .cons v tl => search v ++ searchArr tl
end

/-- Case-insensitive literal matcher, the building block used to model the
`re.IGNORECASE` patterns of the source: on success it returns the consumed
characters (in their original case) and the rest of the input. -/
def ciLit : List Char → List Char → Option (List Char × List Char)
  | [], l => some ([], l)
  | _ :: _, [] => none
  | p :: ps, c :: cs =>
    if c.toLower = p.toLower then
      match ciLit ps cs with
      | some (m, r) => some (c :: m, r)
      | none => none
    else none

/-- A character allowed in the unanchored tail of `JOB_URL_REGEX`
(`[^\s"'>]`). -/
def urlTailChar (c : Char) : Bool :=
  !(pyIsSpace c || c = '"' || c = '\x27' || c = '>')

/-- The part of `JOB_URL_REGEX` after the scheme:
`://www.linkedin.com/jobs/view/[0-9]+[^\s"'>]*`, matched greedily at the
head of the input. -/
def matchTail (l : List Char) : Option (List Char × List Char) :=
  match ciLit ("://www.linkedin.com/jobs/view/".data) l with
  | none => none
  | some (m1, r1) =>
    let ds := r1.takeWhile Char.isDigit
    let r2 := r1.dropWhile Char.isDigit
    if ds = [] then none
    else
      let ts := r2.takeWhile urlTailChar
      let r3 := r2.dropWhile urlTailChar
      some (m1 ++ ds ++ ts, r3)

/-- One attempt of `JOB_URL_REGEX` at the head of the input:
`https?` (greedy on the optional `s`, with backtracking) followed by
`matchTail`. -/
def matchJobUrlAt (l : List Char) : Option (List Char × List Char) :=
  match ciLit ("http".data) l with
  | none => none
  | some (m1, r1) =>
    let withS : Option (List Char × List Char) :=
      match r1 with
      | c :: cs =>
        if c.toLower = 's' then
          match matchTail cs with
          | some (m2, r2) => some (c :: m2, r2)
          | none => none
        else none
      | [] => none
    match withS with
    | some (m2, r2) => some (m1 ++ m2, r2)
    | none =>
      match matchTail r1 with
      | some (m2, r2) => some (m1 ++ m2, r2)
      | none => none

theorem ciLit_append {p l m r : List Char} (h : ciLit p l = some (m, r)) :
    m ++ r = l ∧ m.length = p.length := by
  induction p generalizing l m r with
  | nil =>
    simp [ciLit] at h
    simp [h.1, h.2]
  | cons a ps ih =>
    cases l with
    | nil => simp [ciLit] at h
    | cons c cs =>
      simp only [ciLit] at h
      split at h
      · cases hh : ciLit ps cs with
        | none => rw [hh] at h; exact absurd h (by simp)
        | some mr =>
          obtain ⟨m', r'⟩ := mr
          rw [hh] at h
          simp only [Option.some.injEq, Prod.mk.injEq] at h
          obtain ⟨hm, hr⟩ := h
          obtain ⟨h1, h2⟩ := ih hh
          subst hm hr
          simp [← h1, h2]
      · exact absurd h (by simp)

theorem matchTail_append {l m r : List Char} (h : matchTail l = some (m, r)) :
    m ++ r = l := by
  unfold matchTail at h
  cases hc : ciLit ("://www.linkedin.com/jobs/view/".data) l with
  | none => rw [hc] at h; exact absurd h (by simp)
  | some mr =>
    obtain ⟨m1, r1⟩ := mr
    rw [hc] at h
    simp only at h
    split at h
    · exact absurd h (by simp)
    · simp only [Option.some.injEq, Prod.mk.injEq] at h
      obtain ⟨hm, hr⟩ := h
      have h1 := (ciLit_append hc).1
      have h2 : r1.takeWhile Char.isDigit ++ r1.dropWhile Char.isDigit = r1 :=
        List.takeWhile_append_dropWhile _ _
      have h3 : (r1.dropWhile Char.isDigit).takeWhile urlTailChar ++
          (r1.dropWhile Char.isDigit).dropWhile urlTailChar = r1.dropWhile Char.isDigit :=
        List.takeWhile_append_dropWhile _ _
      rw [← hm, ← hr]
      rw [List.append_assoc, List.append_assoc, h3, h2, h1]

theorem matchTail_rest_le {l m r : List Char} (h : matchTail l = some (m, r)) :
    r.length ≤ l.length := by
  have h1 := matchTail_append h
  have h2 := congrArg List.length h1
  simp only [List.length_append] at h2
  omega

theorem matchJobUrlAt_rest_lt {l m r : List Char} (h : matchJobUrlAt l = some (m, r)) :
    r.length < l.length := by
  unfold matchJobUrlAt at h
  cases hc : ciLit ("http".data) l with
  | none => rw [hc] at h; exact absurd h (by simp)
  | some mr =>
    obtain ⟨m1, r1⟩ := mr
    rw [hc] at h
    obtain ⟨hl, hm1⟩ := ciLit_append hc
    have hlen : l.length = 4 + r1.length := by
      have := congrArg List.length hl
      simp only [List.length_append] at this
      simp only [hm1] at this
      simpa using this.symm
    simp only at h
    split at h
    · rename_i m2 r2 hw
      simp only [Option.some.injEq, Prod.mk.injEq] at h
      obtain ⟨hm, hr⟩ := h
      cases r1 with
      | nil => simp at hw
      | cons c cs =>
        simp only at hw
        split at hw
        · cases ht : matchTail cs with
          | none => rw [ht] at hw; exact absurd hw (by simp)
          | some mr2 =>
            obtain ⟨m3, r3⟩ := mr2
            rw [ht] at hw
            simp only [Option.some.injEq, Prod.mk.injEq] at hw
            have hle := matchTail_rest_le ht
            simp only [List.length_cons] at hlen
            rw [← hr, ← hw.2]
            omega
        · exact absurd hw (by simp)
    · cases ht : matchTail r1 with
      | none => rw [ht] at h; exact absurd h (by simp)
      | some mr2 =>
        obtain ⟨m3, r3⟩ := mr2
        rw [ht] at h
        simp only [Option.some.injEq, Prod.mk.injEq] at h
        have hle := matchTail_rest_le ht
        rw [← h.2]
        omega

/-- Model of `JOB_URL_REGEX.finditer`: non-overlapping matches with their
start positions, scanning left to right. -/
def findJobUrlsAux (l : List Char) (pos : Nat) : List (Nat × List Char) :=
  match h : matchJobUrlAt l with
  | some (m, r) => (pos, m) :: findJobUrlsAux r (pos + m.length)
  | none =>
    match l with
    | [] => []
    | _ :: rest => findJobUrlsAux rest (pos + 1)
termination_by l.length
decreasing_by
  · exact matchJobUrlAt_rest_lt h
  · simp

/-- One attempt of `PLAIN_TITLE_REGEX` / `PLAIN_COMPANY_REGEX`
(`"<label>"\s*:\s*"([^"]{3,200})"`, `re.IGNORECASE`) at the head of the
input; on success, the captured group.  Since the group class excludes the
quote, the group is exactly the maximal quote-free run when its length fits
the `{3,200}` bound and a closing quote follows. -/
def matchQuotedFieldAt (label : List Char) (l : List Char) : Option (List Char) :=
  match ciLit label l with
  | none => none
  | some (_, r1) =>
    match r1.dropWhile pyIsSpace with
    | ':' :: r3 =>
      match r3.dropWhile pyIsSpace with
      | '"' :: r5 =>
        let run := r5.takeWhile (fun c => c != '"')
        if 3 ≤ run.length ∧ run.length ≤ 200 ∧ run.length < r5.length then some run
        else none
      | _ => none
    | _ => none

/-- Model of `re.search` for the quoted-field patterns: leftmost match. -/
def searchQuotedField (label : List Char) : List Char → Option (List Char)
  | [] => none
  | c :: rest =>
    match matchQuotedFieldAt label (c :: rest) with
    | some g => some g
    | none => searchQuotedField label rest

/-- The character class `[A-Za-z0-9&\-\s]` of the heuristic phrase
patterns. -/
def phraseChar (c : Char) : Bool :=
  c.isAlpha || c.isDigit || c = '&' || c = '-' || pyIsSpace c

/-- The final `\s*([A-Z][A-Za-z0-9&\-\s]{2,60})` part shared by the two
heuristic fallbacks (match existence only). -/
def altAfterSep (l : List Char) : Bool :=
  match l.dropWhile pyIsSpace with
  | c :: rest => c.isUpper && 2 ≤ (rest.takeWhile phraseChar).length
  | [] => false

/-- The `\s*(?:at|@)\s*([A-Z]...)` part of the heuristic title pattern,
after the first capture group. -/
def altSepOk (l : List Char) : Bool :=
  match l.dropWhile pyIsSpace with
  | 'a' :: 't' :: r2 => altAfterSep r2
  | '@' :: r2 => altAfterSep r2
  | _ => false

/-- Greedy length search for the `{3,60}` tail of the first capture group
of the heuristic title pattern: `k` counts down from 60, the first length
whose remainder still matches wins (regex greediness). -/
def altTitleGo (c0 : Char) (l : List Char) : Nat → Option (List Char)
  | 0 => none
  | k + 1 =>
    if 3 ≤ k + 1 ∧ k + 1 ≤ (l.takeWhile phraseChar).length ∧ altSepOk (l.drop (k + 1)) = true
    then some (c0 :: l.take (k + 1))
    else altTitleGo c0 l k

/-- Leftmost match of the heuristic pattern
`([A-Z][A-Za-z0-9&\-\s]{3,60})\s*(?:at|@)\s*([A-Z][A-Za-z0-9&\-\s]{2,60})`
(case sensitive, as in the source); returns the first capture group. -/
def altTitleSearch : List Char → Option (List Char)
  | [] => none
  | c :: rest =>
    if c.isUpper then
      match altTitleGo c rest 60 with
      | some g => some g
      | none => altTitleSearch rest
    else altTitleSearch rest

/-- One attempt of the heuristic company pattern
`(?:at|@)\s*([A-Z][A-Za-z0-9&\-\s]{2,60})` at the head of the input;
returns the capture group (greedy, up to 60 class characters). -/
def altCompanyGroup (l : List Char) : Option (List Char) :=
  match l.dropWhile pyIsSpace with
  | c :: rest =>
    if c.isUpper then
      let run := rest.takeWhile phraseChar
      if 2 ≤ run.length then some (c :: run.take 60) else none
    else none
  | [] => none

/-- `(?:at|@)` head of the heuristic company pattern. -/
def altCompanyAt (l : List Char) : Option (List Char) :=
  match l with
  | 'a' :: 't' :: r => altCompanyGroup r
  | '@' :: r => altCompanyGroup r
  | _ => none

/-- Leftmost match of the heuristic company pattern. -/
def altCompanySearch : List Char → Option (List Char)
  | [] => none
  | c :: rest =>
    match altCompanyAt (c :: rest) with
    | some g => some g
    | none => altCompanySearch rest

/-- Embedding of `LinkedInHtmlParser._extract_title_from_plain_text`
(lines 285-293): quoted `"title"` field first, then the capitalized
`X at Y` heuristic; matches are stripped. -/
def extract_title_from_plain_text (text : String) : Option String :=
  match searchQuotedField ("\"title\"".data) text.data with
  | some g => some (pyStrip ⟨g⟩)
  | none =>
    match altTitleSearch text.data with
    | some g => some (pyStrip ⟨g⟩)
    | none => none

/-- Embedding of `LinkedInHtmlParser._extract_company_from_plain_text`
(lines 295-302). -/
def extract_company_from_plain_text (text : String) : Option String :=
  match searchQuotedField ("\"companyName\"".data) text.data with
  | some g => some (pyStrip ⟨g⟩)
  | none =>
    match altCompanySearch text.data with
    | some g => some (pyStrip ⟨g⟩)
    | none => none

/-- Embedding of `LinkedInHtmlParser._regex_extract_jobs_from_text`
(lines 265-279): one raw candidate per `JOB_URL_REGEX` match, in text
order, with title/company searched in a ±300-character window around the
match. -/
def regex_extract_jobs_from_text (text : String) : List RawJob :=
  (findJobUrlsAux text.data 0).map fun sm =>
    let start := sm.1
    let m := sm.2
    let endPos := start + m.length
    let a := start - 300
    let b := min text.data.length (endPos + 300)
    let window : String := ⟨(text.data.drop a).take (b - a)⟩
    { title := pyOrNone (extract_title_from_plain_text window)
    , company := pyOrNone (extract_company_from_plain_text window)
    , link := normalize_link (.str ⟨m⟩) }

/-- Embedding of `LinkedInHtmlParser._try_parse_json_and_extract_jobs`
(lines 133-147), with `json.loads` passed in as `parse` (returning `none`
both for invalid JSON and for a raised exception). -/
def try_parse_json_and_extract_jobs (parse : String → Option JVal) (text : String) :
    List RawJob :=
  match parse text with
  | none => []
  | some data => search data

/-- The per-tag body of the scanning loop in `extract_jobs_from_saved_page`
(lines 46-74): skip empty text, unescape, try the structured path, and fall
back to regex scanning of the same decoded text when it yields nothing. -/
def processBlock (parse : String → Option JVal) (text : String) : List RawJob :=
  if text = "" then []
  else
    let unescaped := pyUnescape text
    let parsed_jobs := try_parse_json_and_extract_jobs parse unescaped
    if parsed_jobs ≠ [] then parsed_jobs
    else regex_extract_jobs_from_text unescaped

/-- The link validity / placeholder filter of the deduplication loop
(lines 79-90): the dedup key of a raw candidate, or `none` when the
candidate is dropped. -/
def candidateKey (job : RawJob) : Option String :=
  match job.link with
  | none => none
  | some l =>
    if l = "" then none
    else
      let lc := pyStrip l
      if pyLower lc = "string" ∨ pyLower lc = "null" ∨
          strContains "com.linkedin.common.Url" lc = true then none
      else some lc

/-- Truthiness of an optional string field (`job.get("title")` etc.). -/
def truthyStr : Option String → Bool
  | some s => s != ""
  | none => false

/-- The merge of lines 96-101: fill only fields that are still falsy. -/
def mergeEntry (existing job : RawJob) : RawJob :=
  { existing with
    title := if !truthyStr existing.title && truthyStr job.title then job.title else existing.title
    company := if !truthyStr existing.company && truthyStr job.company then job.company
               else existing.company }

/-- First-occurrence lookup in the insertion-ordered association list that
models the Python dict `unique_by_link`. -/
def assocLookup : List (String × RawJob) → String → Option RawJob
  | [], _ => none
  | (k, v) :: rest, key => if k = key then some v else assocLookup rest key

/-- In-place update of the entry with the given key (models mutating
`unique_by_link[link_clean]`). -/
def assocUpdate : List (String × RawJob) → String → (RawJob → RawJob) → List (String × RawJob)
  | [], _, _ => []
  | (k, v) :: rest, key, f =>
    if k = key then (k, f v) :: assocUpdate rest key f
    else (k, v) :: assocUpdate rest key f

/-- One iteration of the deduplication loop (lines 78-101). -/
def dedupStep (acc : List (String × RawJob)) (job : RawJob) : List (String × RawJob) :=
  match candidateKey job with
  | none => acc
  | some k =>
    match assocLookup acc k with
    | none => acc ++ [(k, { job with link := some k })]
    | some _ => assocUpdate acc k fun e => mergeEntry e job

/-- The full deduplication pass: the dict `unique_by_link` as an
insertion-ordered association list. -/
def unique_by_link (jobs : List RawJob) : List (String × RawJob) :=
  jobs.foldl dedupStep []

/-- A final listing record (the fields of the constructed `Job` the engine
fills: `title`, `company`, `link`). -/
structure Job where
  title : String
  company : String
  link : String
deriving DecidableEq

/-- The final conversion of one dict entry (lines 105-122).  In the value
space produced by the extractors, `job_data.get("title")` is always `None`
or a string, so `raw_title` is always a string and the
`else "Untitled"` / `else "Unknown company"`branches of lines 110-111 are
unreachable; the empty key is skipped by the `if not link` guard. -/
def finalizeEntry (link : String) (job_data : RawJob) : Option Job :=
  let raw_title := job_data.title.getD ""
  let raw_company := job_data.company.getD ""
  if link = "" then none
  else some { title := pyStrip raw_title, company := pyStrip raw_company, link := pyStrip link }

/-- The final conversion loop over `unique_by_link.items()`. -/
def finalizeEntries (entries : List (String × RawJob)) : List Job :=
  entries.filterMap fun p => finalizeEntry p.1 p.2

/-- Embedding of `LinkedInHtmlParser.extract_jobs_from_saved_page`
(lines 23-126), with the document given as the ordered list of candidate
tag texts and `json.loads` given as `parse`. -/
def extract_jobs_from_saved_page (parse : String → Option JVal) (blocks : List String) :
    List Job :=
  let collected_jobs := blocks.flatMap (processBlock parse)
  finalizeEntries (unique_by_link collected_jobs)

/-- Spec-side helper: the group of raw candidates sharing one dedup key. -/
def groupOf (jobs : List RawJob) (k : String) : List RawJob :=
  jobs.filter fun j => decide (candidateKey j = some k)

/-- Spec-side helper: the value the spec says a merged group carries in one
field — the first truthy value in scan order, else the first candidate's
value. -/
def specMergedField (f : RawJob → Option String) (g : List RawJob) : Option String :=
  match g.find? (fun x => truthyStr (f x)) with
  | some x => f x
  | none => match g with
    | [] => none
    | x :: _ => f x

/-- Spec-side helper: the title the spec says a merged group carries. -/
def specMergedTitle (g : List RawJob) : Option String :=
  specMergedField (fun x => x.title) g

/-- Spec-side helper: the company the spec says a merged group carries. -/
def specMergedCompany (g : List RawJob) : Option String :=
  specMergedField (fun x => x.company) g

/-- Spec-side helper: distinct values in order of first occurrence. -/
def firstSeenOrder (l : List String) : List String :=
  l.foldl (fun acc k => if k ∈ acc then acc else acc ++ [k]) []

/-- Spec-side helper (from the claim's words): making a string link
absolute when it starts with `/`. -/
def absolutize_step (s : String) : String :=
  if pyStartsWith "/" s then "https://www.linkedin.com" ++ s else s

/-- Spec-side helper (from the claim's words): removing the
`navigationUrl:` label from a link that starts with it. -/
def strip_label_step (s : String) : String :=
  if pyStartsWith "navigationUrl:" s then pyStrip (stripNavLabel s) else s

/-- Spec-side helper: a link-bearing field of a node is either absent or
holds a map (used to state which nodes the walker skips). -/
def fieldObjOrAbsent (fs : JObj) (f : String) : Bool :=
  match lookupField fs f with
  | some v => v.isObj
  | none => true

theorem dropWhile_eq_cons_head {α : Type} {p : α → Bool} :
    ∀ {l : List α} {a : α} {t : List α}, l.dropWhile p = a :: t → p a = false := by
  intro l
  induction l with
  | nil => intro a t h; simp at h
  | cons b l' ih =>
    intro a t h
    rw [List.dropWhile_cons] at h
    split at h
    · exact ih h
    · cases h
      rename_i hb
      simpa using hb

theorem dropWhile_idem {α : Type} {p : α → Bool} (l : List α) :
    (l.dropWhile p).dropWhile p = l.dropWhile p := by
  cases h : l.dropWhile p with
  | nil => simp
  | cons a t =>
    have ha := dropWhile_eq_cons_head h
    rw [List.dropWhile_cons, ha]
    simp

theorem stripList_eq_cons {l : List Char} {a : Char} {t : List Char}
    (h : stripList l = a :: t) : pyIsSpace a = false := by
  obtain ⟨u, hu⟩ : ∃ u, stripList l ++ u = l.dropWhile pyIsSpace := by
    refine ⟨((l.dropWhile pyIsSpace).reverse.takeWhile pyIsSpace).reverse, ?_⟩
    unfold stripList
    rw [← List.reverse_append, List.takeWhile_append_dropWhile, List.reverse_reverse]
  rw [h] at hu
  refine dropWhile_eq_cons_head (l := l) (t := t ++ u) ?_
  rw [← hu]
  simp

theorem dropWhile_stripList (l : List Char) :
    (stripList l).dropWhile pyIsSpace = stripList l := by
  cases hm : stripList l with
  | nil => simp
  | cons a t =>
    have ha := stripList_eq_cons hm
    rw [List.dropWhile_cons, ha]
    simp

theorem stripList_idem (l : List Char) : stripList (stripList l) = stripList l := by
  have h1 := dropWhile_stripList l
  show ((((stripList l).dropWhile pyIsSpace).reverse).dropWhile pyIsSpace).reverse = stripList l
  rw [h1]
  have h2 : (stripList l).reverse = (l.dropWhile pyIsSpace).reverse.dropWhile pyIsSpace := by
    unfold stripList; rw [List.reverse_reverse]
  rw [h2, dropWhile_idem]
  rfl

theorem pyStrip_idem (s : String) : pyStrip (pyStrip s) = pyStrip s := by
  show String.mk (stripList (stripList s.data)) = String.mk (stripList s.data)
  exact congrArg String.mk (stripList_idem s.data)

theorem assocLookup_eq_none_iff (l : List (String × RawJob)) (k : String) :
    assocLookup l k = none ↔ k ∉ l.map Prod.fst := by
  induction l with
  | nil => simp [assocLookup]
  | cons p rest ih =>
    obtain ⟨k', v⟩ := p
    by_cases h : k' = k
    · subst h
      simp [assocLookup]
    · simp [assocLookup, h, ih, Ne.symm h]

theorem assocLookup_append_single (acc : List (String × RawJob)) (k0 : String) (x : RawJob)
    (k : String) :
    assocLookup (acc ++ [(k0, x)]) k =
      (match assocLookup acc k with
       | some e => some e
       | none => if k0 = k then some x else none) := by
  induction acc with
  | nil => simp [assocLookup]
  | cons p rest ih =>
    obtain ⟨k', v⟩ := p
    by_cases h : k' = k
    · subst h
      simp [assocLookup]
    · simp [assocLookup, h, ih]

theorem assocLookup_update_self (l : List (String × RawJob)) (k : String) (f : RawJob → RawJob) :
    assocLookup (assocUpdate l k f) k = (assocLookup l k).map f := by
  induction l with
  | nil => simp [assocLookup, assocUpdate]
  | cons p rest ih =>
    obtain ⟨k', v⟩ := p
    by_cases h : k' = k
    · subst h
      simp [assocLookup, assocUpdate]
    · simp [assocLookup, assocUpdate, h, ih]

theorem assocLookup_update_ne (l : List (String × RawJob)) (k k' : String) (f : RawJob → RawJob)
    (h : k ≠ k') :
    assocLookup (assocUpdate l k' f) k = assocLookup l k := by
  induction l with
  | nil => simp [assocLookup, assocUpdate]
  | cons p rest ih =>
    obtain ⟨k0, v⟩ := p
    by_cases h0 : k0 = k'
    · subst h0
      simp [assocLookup, assocUpdate, Ne.symm h, ih]
    · by_cases h1 : k0 = k
      · subst h1
        simp [assocLookup, assocUpdate, h0]
      · simp [assocLookup, assocUpdate, h0, h1, ih]

theorem assocUpdate_map_fst (l : List (String × RawJob)) (k : String) (f : RawJob → RawJob) :
    (assocUpdate l k f).map Prod.fst = l.map Prod.fst := by
  induction l with
  | nil => simp [assocUpdate]
  | cons p rest ih =>
    obtain ⟨k', v⟩ := p
    by_cases h : k' = k
    · subst h
      simp [assocUpdate, ih]
    · simp [assocUpdate, h, ih]

theorem unique_concat (jobs : List RawJob) (j : RawJob) :
    unique_by_link (jobs ++ [j]) = dedupStep (unique_by_link jobs) j := by
  simp [unique_by_link, List.foldl_append]

theorem mem_foldl_firstSeen (l : List String) : ∀ (acc : List String) (x : String),
    (x ∈ l.foldl (fun acc k => if k ∈ acc then acc else acc ++ [k]) acc) ↔ x ∈ acc ∨ x ∈ l := by
  induction l with
  | nil => intro acc x; simp
  | cons a l' ih =>
    intro acc x
    rw [List.foldl_cons, ih]
    by_cases h : a ∈ acc
    · simp only [h, if_true, List.mem_cons]
      constructor
      · rintro (hx | hx)
        · exact Or.inl hx
        · exact Or.inr (Or.inr hx)
      · rintro (hx | hx | hx)
        · exact Or.inl hx
        · exact Or.inl (hx ▸ h)
        · exact Or.inr hx
    · simp [h, List.mem_append, or_assoc]

theorem mem_firstSeenOrder (l : List String) (x : String) :
    x ∈ firstSeenOrder l ↔ x ∈ l := by
  have := mem_foldl_firstSeen l [] x
  simpa [firstSeenOrder] using this

theorem nodup_foldl_firstSeen (l : List String) : ∀ acc : List String, acc.Nodup →
    (l.foldl (fun acc k => if k ∈ acc then acc else acc ++ [k]) acc).Nodup := by
  induction l with
  | nil => intro acc h; simpa using h
  | cons a l' ih =>
    intro acc h
    rw [List.foldl_cons]
    apply ih
    by_cases hm : a ∈ acc
    · simpa [hm] using h
    · simp [hm, List.nodup_append, h]

theorem firstSeenOrder_nodup (l : List String) : (firstSeenOrder l).Nodup :=
  nodup_foldl_firstSeen l [] (by simp)

theorem firstSeenOrder_concat (l : List String) (k : String) :
    firstSeenOrder (l ++ [k]) =
      if k ∈ firstSeenOrder l then firstSeenOrder l else firstSeenOrder l ++ [k] := by
  simp [firstSeenOrder, List.foldl_append]

theorem candidateKey_some {j : RawJob} {k : String} (h : candidateKey j = some k) :
    pyStrip k = k ∧
      ¬(pyLower k = "string" ∨ pyLower k = "null" ∨
        strContains "com.linkedin.common.Url" k = true) := by
  unfold candidateKey at h
  cases hl : j.link with
  | none => rw [hl] at h; simp at h
  | some l =>
    rw [hl] at h
    by_cases he : l = ""
    · simp [he] at h
    · by_cases hp : pyLower (pyStrip l) = "string" ∨ pyLower (pyStrip l) = "null" ∨
          strContains "com.linkedin.common.Url" (pyStrip l) = true
      · simp [he, hp] at h
      · simp only [he, hp, if_false, if_neg, Option.some.injEq] at h
        rw [← h]
        exact ⟨pyStrip_idem l, hp⟩

theorem unique_map_fst (jobs : List RawJob) :
    (unique_by_link jobs).map Prod.fst = firstSeenOrder (jobs.filterMap candidateKey) := by
  induction jobs using List.reverseRecOn with
  | nil => simp [unique_by_link, firstSeenOrder]
  | append_singleton l j ih =>
    rw [unique_concat, List.filterMap_append]
    cases hck : candidateKey j with
    | none =>
      simp [dedupStep, hck, List.filterMap_cons, ih]
    | some k =>
      simp only [List.filterMap_cons, hck, List.filterMap_nil]
      rw [firstSeenOrder_concat]
      cases hal : assocLookup (unique_by_link l) k with
      | none =>
        have hk : k ∉ (unique_by_link l).map Prod.fst :=
          (assocLookup_eq_none_iff _ _).mp hal
        rw [ih] at hk
        simp [dedupStep, hck, hal, if_neg hk, ih]
      | some e =>
        have hk : k ∈ (unique_by_link l).map Prod.fst := by
          by_contra hc
          rw [← assocLookup_eq_none_iff] at hc
          rw [hc] at hal
          exact absurd hal (by simp)
        rw [ih] at hk
        simp [dedupStep, hck, hal, if_pos hk, assocUpdate_map_fst, ih]

theorem unique_lookup_none_iff (jobs : List RawJob) (k : String) :
    assocLookup (unique_by_link jobs) k = none ↔ groupOf jobs k = [] := by
  rw [assocLookup_eq_none_iff, unique_map_fst, mem_firstSeenOrder]
  simp [List.mem_filterMap, groupOf, List.filter_eq_nil_iff]

theorem groupOf_concat (jobs : List RawJob) (j : RawJob) (k : String) :
    groupOf (jobs ++ [j]) k =
      groupOf jobs k ++ (if candidateKey j = some k then [j] else []) := by
  by_cases h : candidateKey j = some k <;> simp [groupOf, List.filter_append, h]

theorem specMergedField_single (f : RawJob → Option String) (j : RawJob) :
    specMergedField f [j] = f j := by
  cases hj : truthyStr (f j) <;> simp [specMergedField, List.find?_cons, hj]

theorem merge_field_step (f : RawJob → Option String) (g : List RawJob) (hg : g ≠ [])
    (j : RawJob) :
    (if !truthyStr (specMergedField f g) && truthyStr (f j) then f j else specMergedField f g) =
      specMergedField f (g ++ [j]) := by
  cases hf : g.find? (fun x => truthyStr (f x)) with
  | some x0 =>
    have hx0 : truthyStr (f x0) = true := by simpa using List.find?_some hf
    have hspec : specMergedField f g = f x0 := by simp [specMergedField, hf]
    have happend : (g ++ [j]).find? (fun x => truthyStr (f x)) = some x0 := by
      rw [List.find?_append, hf]
      rfl
    rw [hspec, hx0]
    simp only [specMergedField, happend]
    simp
  | none =>
    obtain ⟨g0, gt, rfl⟩ : ∃ g0 gt, g = g0 :: gt := by
      cases g with
      | nil => exact absurd rfl hg
      | cons g0 gt => exact ⟨g0, gt, rfl⟩
    have hspec : specMergedField f (g0 :: gt) = f g0 := by simp [specMergedField, hf]
    have h0 : truthyStr (f g0) = false := by
      have := List.find?_eq_none.mp hf g0 (by simp)
      simpa using this
    rw [hspec, h0]
    cases hj : truthyStr (f j) with
    | true =>
      have happend : ((g0 :: (gt ++ [j])) : List RawJob).find? (fun x => truthyStr (f x)) =
          some j := by
        have hca : ((g0 :: gt) ++ [j] : List RawJob) = g0 :: (gt ++ [j]) := by simp
        rw [← hca, List.find?_append, hf]
        simp [List.find?_cons, hj]
      simp only [specMergedField, List.cons_append, happend]
      simp
    | false =>
      have happend : ((g0 :: (gt ++ [j])) : List RawJob).find? (fun x => truthyStr (f x)) =
          none := by
        have hca : ((g0 :: gt) ++ [j] : List RawJob) = g0 :: (gt ++ [j]) := by simp
        rw [← hca, List.find?_append, hf]
        simp [List.find?_cons, hj]
      simp only [specMergedField, List.cons_append, happend]
      simp

theorem unique_entry_spec : ∀ (jobs : List RawJob) (k : String) (e : RawJob),
    assocLookup (unique_by_link jobs) k = some e →
    groupOf jobs k ≠ [] ∧ e.title = specMergedTitle (groupOf jobs k) ∧
      e.company = specMergedCompany (groupOf jobs k) := by
  intro jobs
  induction jobs using List.reverseRecOn with
  | nil => intro k e h; simp [unique_by_link, assocLookup] at h
  | append_singleton l j ih =>
    intro k e h
    rw [unique_concat] at h
    rw [groupOf_concat]
    cases hck : candidateKey j with
    | none =>
      simp only [dedupStep, hck] at h
      simpa using ih k e h
    | some k' =>
      simp only [dedupStep, hck] at h
      by_cases hkk : k' = k
      · subst hkk
        cases hal : assocLookup (unique_by_link l) k' with
        | none =>
          rw [hal, assocLookup_append_single] at h
          simp only [hal, if_pos rfl] at h
          have he : { j with link := some k' } = e := Option.some.inj h
          have hgrp : groupOf l k' = [] := (unique_lookup_none_iff l k').mp hal
          rw [hgrp]
          simp only [if_pos rfl, List.nil_append]
          refine ⟨by simp, ?_, ?_⟩
          · rw [← he]
            simp [specMergedTitle, specMergedField_single]
          · rw [← he]
            simp [specMergedCompany, specMergedField_single]
        | some e0 =>
          rw [hal, assocLookup_update_self, hal] at h
          have h2 : mergeEntry e0 j = e := by simpa using h
          obtain ⟨hne, ht0, hc0⟩ := ih k' e0 hal
          simp only [eq_self_iff_true, if_true]
          refine ⟨by simp, ?_, ?_⟩
          · rw [← h2]
            show (if !truthyStr e0.title && truthyStr j.title then j.title else e0.title) =
              specMergedTitle (groupOf l k' ++ [j])
            rw [ht0]
            show _ = specMergedField (fun x => x.title) (groupOf l k' ++ [j])
            exact merge_field_step _ _ hne j
          · rw [← h2]
            show (if !truthyStr e0.company && truthyStr j.company then j.company
                  else e0.company) = specMergedCompany (groupOf l k' ++ [j])
            rw [hc0]
            show _ = specMergedField (fun x => x.company) (groupOf l k' ++ [j])
            exact merge_field_step _ _ hne j
      · have hne1 : (some k' : Option String) ≠ some k := by simpa using hkk
        cases hal : assocLookup (unique_by_link l) k' with
        | none =>
          rw [hal, assocLookup_append_single] at h
          cases hal2 : assocLookup (unique_by_link l) k with
          | none =>
            simp only [hal2, if_neg hkk] at h
            exact absurd h (by simp)
          | some e2 =>
            simp only [hal2, Option.some.injEq] at h
            simpa [hne1, ← h] using ih k e2 hal2
        | some e0 =>
          rw [hal, assocLookup_update_ne _ _ _ _ (Ne.symm hkk)] at h
          simpa [hne1] using ih k e h

theorem unique_keys_stripped (jobs : List RawJob) :
    ∀ k ∈ (unique_by_link jobs).map Prod.fst, pyStrip k = k := by
  intro k hk
  rw [unique_map_fst, mem_firstSeenOrder] at hk
  obtain ⟨j, hj, hcj⟩ := List.mem_filterMap.mp hk
  exact (candidateKey_some hcj).1

theorem finalizeEntries_map_link : ∀ entries : List (String × RawJob),
    (∀ k ∈ entries.map Prod.fst, pyStrip k = k) →
    (finalizeEntries entries).map Job.link = (entries.map Prod.fst).filter (fun s => s != "") := by
  intro entries
  induction entries with
  | nil => intro h; simp [finalizeEntries]
  | cons p rest ih =>
    intro h
    obtain ⟨k, jd⟩ := p
    have hk : pyStrip k = k := h k (by simp)
    have hrest : ∀ k' ∈ rest.map Prod.fst, pyStrip k' = k' := by
      intro k' hk'
      exact h k' (by simp [hk'])
    by_cases hke : k = ""
    · subst hke
      simpa [finalizeEntries, List.filterMap_cons, finalizeEntry] using ih hrest
    · simpa [finalizeEntries, List.filterMap_cons, finalizeEntry, hke, hk] using ih hrest

theorem finalizeEntries_trimmed : ∀ entries : List (String × RawJob),
    ((finalizeEntries entries).all fun j =>
      pyStrip j.title == j.title && pyStrip j.company == j.company &&
        pyStrip j.link == j.link) = true := by
  intro entries
  induction entries with
  | nil => simp [finalizeEntries]
  | cons p rest ih =>
    obtain ⟨k, jd⟩ := p
    by_cases hke : k = ""
    · simpa [finalizeEntries, List.filterMap_cons, finalizeEntry, hke] using ih
    · simpa [finalizeEntries, List.filterMap_cons, finalizeEntry, hke, pyStrip_idem] using ih

theorem out_map_link (jobs : List RawJob) :
    (finalizeEntries (unique_by_link jobs)).map Job.link =
      (firstSeenOrder (jobs.filterMap candidateKey)).filter (fun s => s != "") := by
  rw [finalizeEntries_map_link _ (unique_keys_stripped jobs), unique_map_fst]

/-- C1: for every input document (its candidate blocks, with `json.loads`
behaviour `parse`), the emitted links are exactly the distinct valid dedup
keys in the order their link was first seen among the raw candidates, no
two records share a link, and every emitted link is non-empty. -/
theorem claim_C1_dedup_invariants (parse : String → Option JVal) (blocks : List String) :
    (extract_jobs_from_saved_page parse blocks).map Job.link =
      (firstSeenOrder ((blocks.flatMap (processBlock parse)).filterMap candidateKey)).filter
        (fun s => s != "") ∧
    ((extract_jobs_from_saved_page parse blocks).map Job.link).Nodup ∧
    ((extract_jobs_from_saved_page parse blocks).all fun j => j.link != "") = true := by
  have hout : extract_jobs_from_saved_page parse blocks =
      finalizeEntries (unique_by_link (blocks.flatMap (processBlock parse))) := rfl
  refine ⟨?_, ?_, ?_⟩
  · rw [hout]
    exact out_map_link _
  · rw [hout, out_map_link]
    exact (firstSeenOrder_nodup _).filter _
  · rw [List.all_eq_true]
    intro j hj
    have hmem : j.link ∈ (extract_jobs_from_saved_page parse blocks).map Job.link :=
      List.mem_map_of_mem _ hj
    rw [hout, out_map_link] at hmem
    exact (List.mem_filter.mp hmem).2

/-- C2: among raw candidates sharing one dedup key, the merged entry's
title is the first truthy title in scan order and its company the first
truthy company (falling back to the first candidate's value when no truthy
one exists); consequently a field once filled is never overwritten. -/
theorem claim_C2_merge_first_wins (jobs : List RawJob) (k : String) (e : RawJob)
    (h : assocLookup (unique_by_link jobs) k = some e) :
    e.title = specMergedTitle (groupOf jobs k) ∧
      e.company = specMergedCompany (groupOf jobs k) :=
  ⟨(unique_entry_spec jobs k e h).2.1, (unique_entry_spec jobs k e h).2.2⟩

/-- Witness for C2: an empty-titled first candidate is filled by the second
candidate's title. -/
theorem claim_C2_merge_first_wins_witness :
    assocLookup
      (unique_by_link
        [{ title := none, company := none, link := some "https://x" },
         { title := some "T", company := some "C", link := some "https://x" }]) "https://x" =
      some { title := some "T", company := some "C", link := some "https://x" } ∧
    (({ title := some "T", company := some "C", link := some "https://x" } : RawJob).title =
      specMergedTitle
        (groupOf
          [{ title := none, company := none, link := some "https://x" },
           { title := some "T", company := some "C", link := some "https://x" }] "https://x") ∧
     ({ title := some "T", company := some "C", link := some "https://x" } : RawJob).company =
      specMergedCompany
        (groupOf
          [{ title := none, company := none, link := some "https://x" },
           { title := some "T", company := some "C", link := some "https://x" }] "https://x")) :=
  ⟨by decide, claim_C2_merge_first_wins _ _ _ (by decide)⟩

/-- C3: no emitted record carries a placeholder link ("string", "null", or
anything containing the type-namespace marker); a raw candidate with a
placeholder link produces no record at all; and a node with
`"navigationUrl": "string"` contributes no record to the output. -/
theorem claim_C3_placeholders_rejected :
    (∀ (parse : String → Option JVal) (blocks : List String),
      ((extract_jobs_from_saved_page parse blocks).all fun j =>
        !(j.link == "string" || j.link == "null" ||
          strContains "com.linkedin.common.Url" j.link)) = true) ∧
    extract_jobs_from_saved_page
      (fun _ => some (.obj (.cons "navigationUrl" (.str "string") .nil))) ["x"] = [] ∧
    (∀ jobs : List RawJob,
      finalizeEntries (unique_by_link
        ({ title := none, company := none, link := some "string" } :: jobs)) =
        finalizeEntries (unique_by_link jobs)) := by
  refine ⟨?_, ?_, ?_⟩
  · intro parse blocks
    rw [List.all_eq_true]
    intro j hj
    have hmem : j.link ∈ (extract_jobs_from_saved_page parse blocks).map Job.link :=
      List.mem_map_of_mem _ hj
    have hout : extract_jobs_from_saved_page parse blocks =
        finalizeEntries (unique_by_link (blocks.flatMap (processBlock parse))) := rfl
    rw [hout, out_map_link] at hmem
    have h2 := (List.mem_filter.mp hmem).1
    rw [mem_firstSeenOrder] at h2
    obtain ⟨cand, hcand, hck⟩ := List.mem_filterMap.mp h2
    obtain ⟨hstrip, hneg⟩ := candidateKey_some hck
    push_neg at hneg
    have h3 : j.link ≠ "string" := by
      intro hh
      exact hneg.1 (by rw [hh]; decide)
    have h4 : j.link ≠ "null" := by
      intro hh
      exact hneg.2.1 (by rw [hh]; decide)
    have h5 : strContains "com.linkedin.common.Url" j.link = false := by
      cases hsc : strContains "com.linkedin.common.Url" j.link with
      | false => rfl
      | true => exact absurd hsc hneg.2.2
    simp [h3, h4, h5]
  · decide
  · intro jobs
    have hstep : dedupStep [] { title := none, company := none, link := some "string" } = [] := by
      decide
    show finalizeEntries (List.foldl dedupStep []
      ({ title := none, company := none, link := some "string" } :: jobs)) = _
    rw [List.foldl_cons, hstep]
    rfl

/-- C4 (code-bug demonstration): when every merged candidate lacks a title
and a company, the emitted record carries the empty string in both fields —
the `"Untitled"` / `"Unknown company"` defaults of lines 110-111 are
unreachable because line 107's `or ""` has already replaced `None` by a
string. -/
theorem claim_C4_defaults_unreachable :
    extract_jobs_from_saved_page
      (fun _ => some (.obj (.cons "navigationUrl"
        (.str "https://www.linkedin.com/jobs/view/42") .nil))) ["x"] =
      [{ title := "", company := "",
         link := "https://www.linkedin.com/jobs/view/42" }] ∧
    ("" : String) ≠ "Untitled" ∧ ("" : String) ≠ "Unknown company" :=
  ⟨by decide, by decide, by decide⟩

/-- C5 counterexample: the field loop of the walker has no `break`, so a
node carrying two recognized link-bearing fields emits two raw candidates,
not exactly one. -/
theorem claim_C5_counterexample :
    search (.obj (.cons "navigationUrl" (.str "/a") (.cons "url" (.str "/b") .nil))) =
      [{ title := none, company := none, link := some "https://www.linkedin.com/a" },
       { title := none, company := none, link := some "https://www.linkedin.com/b" }] ∧
    (search (.obj (.cons "navigationUrl" (.str "/a")
      (.cons "url" (.str "/b") .nil)))).length ≠ 1 :=
  ⟨by decide, by decide⟩

/-- C5 (amended): the walker emits one raw candidate per link-bearing field
whose value is truthy, non-dict and normalizes to a truthy link; in
particular, a node carrying exactly one recognized field with such a value
emits exactly one candidate from the node itself, whose link is that
field's normalized value. -/
theorem claim_C5_amended (fs : JObj) (field : String) (v : JVal) (ln : String)
    (hmem : field ∈ possible_url_fields)
    (hothers : ∀ f ∈ possible_url_fields, f ≠ field → lookupField fs f = none)
    (hlook : lookupField fs field = some v)
    (htr : truthy v = true)
    (hnorm : normalize_link v = some ln)
    (hln : ln ≠ "")
    (hobj : v.isObj = false) :
    nodeOwnCandidates fs =
      [{ title := pyOrNone (extract_title_from_node fs)
       , company := pyOrNone (extract_company_from_node fs)
       , link := some ln }] := by
  simp only [possible_url_fields, List.mem_cons, List.not_mem_nil, or_false] at hmem
  rcases hmem with rfl | rfl | rfl | rfl | rfl
  · have h2 := hothers "navigationUrlForTracking" (by simp [possible_url_fields]) (by decide)
    have h3 := hothers "navigationUrlForJob" (by simp [possible_url_fields]) (by decide)
    have h4 := hothers "jobUrl" (by simp [possible_url_fields]) (by decide)
    have h5 := hothers "url" (by simp [possible_url_fields]) (by decide)
    simp [nodeOwnCandidates, possible_url_fields, List.filterMap_cons, hlook, h2, h3, h4, h5,
      htr, hnorm, hln, hobj]
  · have h1 := hothers "navigationUrl" (by simp [possible_url_fields]) (by decide)
    have h3 := hothers "navigationUrlForJob" (by simp [possible_url_fields]) (by decide)
    have h4 := hothers "jobUrl" (by simp [possible_url_fields]) (by decide)
    have h5 := hothers "url" (by simp [possible_url_fields]) (by decide)
    simp [nodeOwnCandidates, possible_url_fields, List.filterMap_cons, hlook, h1, h3, h4, h5,
      htr, hnorm, hln, hobj]
  · have h1 := hothers "navigationUrl" (by simp [possible_url_fields]) (by decide)
    have h2 := hothers "navigationUrlForTracking" (by simp [possible_url_fields]) (by decide)
    have h4 := hothers "jobUrl" (by simp [possible_url_fields]) (by decide)
    have h5 := hothers "url" (by simp [possible_url_fields]) (by decide)
    simp [nodeOwnCandidates, possible_url_fields, List.filterMap_cons, hlook, h1, h2, h4, h5,
      htr, hnorm, hln, hobj]
  · have h1 := hothers "navigationUrl" (by simp [possible_url_fields]) (by decide)
    have h2 := hothers "navigationUrlForTracking" (by simp [possible_url_fields]) (by decide)
    have h3 := hothers "navigationUrlForJob" (by simp [possible_url_fields]) (by decide)
    have h5 := hothers "url" (by simp [possible_url_fields]) (by decide)
    simp [nodeOwnCandidates, possible_url_fields, List.filterMap_cons, hlook, h1, h2, h3, h5,
      htr, hnorm, hln, hobj]
  · have h1 := hothers "navigationUrl" (by simp [possible_url_fields]) (by decide)
    have h2 := hothers "navigationUrlForTracking" (by simp [possible_url_fields]) (by decide)
    have h3 := hothers "navigationUrlForJob" (by simp [possible_url_fields]) (by decide)
    have h4 := hothers "jobUrl" (by simp [possible_url_fields]) (by decide)
    simp [nodeOwnCandidates, possible_url_fields, List.filterMap_cons, hlook, h1, h2, h3, h4,
      htr, hnorm, hln, hobj]

/-- Witness for the amended C5: a node with only a `jobUrl` field emits
exactly one candidate with its normalized link. -/
theorem claim_C5_amended_witness :
    nodeOwnCandidates (JObj.cons "jobUrl" (JVal.str "/x") JObj.nil) =
      [{ title := pyOrNone (extract_title_from_node (JObj.cons "jobUrl" (JVal.str "/x") JObj.nil))
       , company :=
          pyOrNone (extract_company_from_node (JObj.cons "jobUrl" (JVal.str "/x") JObj.nil))
       , link := some "https://www.linkedin.com/x" }] :=
  claim_C5_amended _ "jobUrl" (JVal.str "/x") "https://www.linkedin.com/x"
    (by decide) (by decide) (by decide) (by decide) (by decide) (by decide) (by decide)

/-- C6 counterexample: a node whose link-bearing field holds a map with a
`href` sub-key normalizes successfully, yet the walker emits no record at
all for that node (it skips dict-valued links). -/
theorem claim_C6_counterexample :
    normalize_link (.obj (.cons "href" (.str "/jobs/view/9") .nil)) =
      some "https://www.linkedin.com/jobs/view/9" ∧
    search (.obj (.cons "navigationUrl"
      (.obj (.cons "href" (.str "/jobs/view/9") .nil)) .nil)) = [] :=
  ⟨by decide, by decide⟩

/-- C6 (amended): the normalizer does resolve a truthy map through the
first string-valued sub-key, but the walker skips map-valued link fields:
a node all of whose link-bearing fields are absent or map-valued emits no
candidate of its own, while its wrapper keys and children are still
scanned. -/
theorem claim_C6_amended :
    (∀ (o : JObj) (s : String), truthy (.obj o) = true →
      firstStringKey o possible_keys = some s →
      normalize_link (.obj o) =
        some (strip_label_step (absolutize_step (pyStrip (pyUnescape s))))) ∧
    (∀ fs : JObj,
      (possible_url_fields.all fun f => fieldObjOrAbsent fs f) = true →
      nodeOwnCandidates fs = [] ∧
      search (.obj fs) =
        (searchKey fs "jobPosting" ++ (searchKey fs "jobCard" ++ (searchKey fs "job" ++
          (searchKey fs "jobPostings" ++ (searchKey fs "item" ++ searchKey fs "elements"))))) ++
          searchValues fs) := by
  constructor
  · intro o s htr hf
    simp [normalize_link, htr, hf, absolutize_step, strip_label_step]
  · intro fs h
    have hown : nodeOwnCandidates fs = [] := by
      unfold nodeOwnCandidates
      rw [List.filterMap_eq_nil_iff]
      intro field hfld
      have hff := List.all_eq_true.mp h field hfld
      unfold fieldObjOrAbsent at hff
      cases hl : lookupField fs field with
      | none => simp [hl]
      | some v =>
        rw [hl] at hff
        have hff2 : v.isObj = true := by simpa using hff
        cases hn : normalize_link v with
        | none => simp [hl, hn]
        | some ln => simp [hl, hn, hff2]
    refine ⟨hown, ?_⟩
    simp only [search, hown, List.nil_append]

/-- Witness for the amended C6: normalization succeeds on the nested map
while the node emits nothing of its own. -/
theorem claim_C6_amended_witness :
    normalize_link (.obj (.cons "href" (.str "/jobs/view/9") .nil)) =
      some (strip_label_step (absolutize_step (pyStrip (pyUnescape "/jobs/view/9")))) ∧
    (nodeOwnCandidates (JObj.cons "navigationUrl"
        (JVal.obj (JObj.cons "href" (JVal.str "/jobs/view/9") JObj.nil)) JObj.nil) = [] ∧
      search (.obj (JObj.cons "navigationUrl"
        (JVal.obj (JObj.cons "href" (JVal.str "/jobs/view/9") JObj.nil)) JObj.nil)) =
        (searchKey (JObj.cons "navigationUrl"
            (JVal.obj (JObj.cons "href" (JVal.str "/jobs/view/9") JObj.nil)) JObj.nil)
            "jobPosting" ++
          (searchKey (JObj.cons "navigationUrl"
            (JVal.obj (JObj.cons "href" (JVal.str "/jobs/view/9") JObj.nil)) JObj.nil)
            "jobCard" ++
          (searchKey (JObj.cons "navigationUrl"
            (JVal.obj (JObj.cons "href" (JVal.str "/jobs/view/9") JObj.nil)) JObj.nil)
            "job" ++
          (searchKey (JObj.cons "navigationUrl"
            (JVal.obj (JObj.cons "href" (JVal.str "/jobs/view/9") JObj.nil)) JObj.nil)
            "jobPostings" ++
          (searchKey (JObj.cons "navigationUrl"
            (JVal.obj (JObj.cons "href" (JVal.str "/jobs/view/9") JObj.nil)) JObj.nil)
            "item" ++
          searchKey (JObj.cons "navigationUrl"
            (JVal.obj (JObj.cons "href" (JVal.str "/jobs/view/9") JObj.nil)) JObj.nil)
            "elements"))))) ++
          searchValues (JObj.cons "navigationUrl"
            (JVal.obj (JObj.cons "href" (JVal.str "/jobs/view/9") JObj.nil)) JObj.nil)) :=
  ⟨claim_C6_amended.1 _ "/jobs/view/9" (by decide) (by decide),
   claim_C6_amended.2 _ (by decide)⟩

/-- C7: a block whose decoded text is not parsable as JSON (modelled by
`parse` returning `none`, which also covers a raised exception) contributes
exactly the candidates of regex scanning of the same decoded text — the
structured path contributes nothing and no error is raised. -/
theorem claim_C7_parse_failure_fallback (parse : String → Option JVal) (text : String)
    (h : parse (pyUnescape text) = none) :
    processBlock parse text = regex_extract_jobs_from_text (pyUnescape text) := by
  unfold processBlock
  by_cases ht : text = ""
  · subst ht
    simp only [if_pos rfl]
    show ([] : List RawJob) = regex_extract_jobs_from_text (pyUnescape "")
    have h1 : findJobUrlsAux ((pyUnescape "").data) 0 = [] := by
      unfold findJobUrlsAux
      rfl
    unfold regex_extract_jobs_from_text
    rw [h1]
    rfl
  · simp only [if_neg ht]
    simp [try_parse_json_and_extract_jobs, h]

/-- Witness for C7: an unparsable plain-text block goes through the regex
path. -/
theorem claim_C7_parse_failure_fallback_witness :
    (fun _ : String => (none : Option JVal)) (pyUnescape "plain text") = none ∧
    processBlock (fun _ : String => (none : Option JVal)) "plain text" =
      regex_extract_jobs_from_text (pyUnescape "plain text") :=
  ⟨rfl, claim_C7_parse_failure_fallback _ _ rfl⟩

/-- C8: for a truthy string value the normalizer decodes HTML entities,
strips surrounding whitespace, absolutizes a leading `/` against the fixed
origin and strips the `navigationUrl:` label, in that order; in particular
`"/jobs/view/7"` normalizes to `"https://www.linkedin.com/jobs/view/7"`. -/
theorem claim_C8_normalization_of_strings :
    (∀ s : String, s ≠ "" →
      normalize_link (.str s) =
        some (strip_label_step (absolutize_step (pyStrip (pyUnescape s))))) ∧
    normalize_link (.str "/jobs/view/7") = some "https://www.linkedin.com/jobs/view/7" := by
  constructor
  · intro s hs
    have ht : truthy (.str s) = true := by simp [truthy, hs]
    simp [normalize_link, ht, absolutize_step, strip_label_step]
  · decide

/-- Witness for C8: the string path of the normalizer on a concrete link. -/
theorem claim_C8_normalization_of_strings_witness :
    (" /jobs/view/7 " : String) ≠ "" ∧
    normalize_link (.str " /jobs/view/7 ") =
      some (strip_label_step (absolutize_step (pyStrip (pyUnescape " /jobs/view/7 ")))) :=
  ⟨by decide, claim_C8_normalization_of_strings.1 " /jobs/view/7 " (by decide)⟩

/-- C9: the extraction engine is deterministic — byte-identical input (the
same blocks under the same `json.loads` behaviour) yields the same output
sequence. -/
theorem claim_C9_determinism (parse : String → Option JVal) (blocks1 blocks2 : List String)
    (h : blocks1 = blocks2) :
    extract_jobs_from_saved_page parse blocks1 = extract_jobs_from_saved_page parse blocks2 := by
  rw [h]

/-- Witness for C9. -/
theorem claim_C9_determinism_witness :
    (["b"] : List String) = ["b"] ∧
    extract_jobs_from_saved_page (fun _ : String => (none : Option JVal)) ["b"] =
      extract_jobs_from_saved_page (fun _ : String => (none : Option JVal)) ["b"] :=
  ⟨rfl, claim_C9_determinism _ _ _ rfl⟩

/-- C10 (implicit): every emitted record's title, company and link are
fixed points of stripping — they carry no leading or trailing
whitespace. -/
theorem claim_C10_outputs_trimmed (parse : String → Option JVal) (blocks : List String) :
    ((extract_jobs_from_saved_page parse blocks).all fun j =>
      pyStrip j.title == j.title && pyStrip j.company == j.company &&
        pyStrip j.link == j.link) = true :=
  finalizeEntries_trimmed _

end LinkedIn
